import Mathlib

/-!
# Verification of the blockquant simulation core

A shallow embedding of the event-driven backtesting core of the
`quantxyz/blockquant` repository (files `src/drg/model.rs`,
`src/drg/strategy.rs`, `src/drg/broker.rs`), together with theorems
settling the specification claims about it.

Modelling conventions:
* Rust `f64` values are modelled as `ℚ` (exact arithmetic, the idealised
  semantics of the price/size computations); `i64` timestamps as `ℤ`.
* The `HashMap<String, _>` tables of `Context` are modelled as association
  lists (`List (String × _)`); only keyed lookup/update is ever used by the
  code, so iteration order is irrelevant.
* Rust methods become Lean functions threading the context explicitly;
  every `event_sender.send` is modelled by appending the event to the list
  of emitted events returned alongside the updated context.
-/

namespace BlockQuant

/-- `Candle` (src/drg/model.rs): one OHLCV bar. -/
structure Candle where
  symbol : String
  timestamp : ℤ
  open_ : ℚ
  high : ℚ
  low : ℚ
  close : ℚ
  volume : ℚ
  interval : String
deriving DecidableEq, Repr

/-- `Position` (src/drg/model.rs). -/
structure Position where
  item : String
  size : ℚ
  price : ℚ
  highest : ℚ
  lowest : ℚ
  stop_loss : ℚ
  take_profit : ℚ
  timestamp : ℤ
deriving DecidableEq, Repr

/-- `Order` (src/drg/model.rs). -/
structure Order where
  item : String
  price : ℚ
  qty : ℚ
  timestamp : ℤ
deriving DecidableEq, Repr

/-- `Equity` (src/drg/model.rs). -/
structure Equity where
  item : String
  timestamp : ℤ
  equity_value : ℚ
  close_latest : ℚ
  pos_size : ℚ
  cash_aval : ℚ
deriving DecidableEq, Repr

/-- `TradeRecord` (src/drg/model.rs). -/
structure TradeRecord where
  item : String
  side : String
  size : ℚ
  price_open : ℚ
  time_open : ℤ
  price_close : ℚ
  time_close : ℤ
  label_close : String
deriving DecidableEq, Repr

/-- `Event` (src/drg/model.rs): the tagged union carried by the bus. -/
inductive Event where
  | EventFinish : Event
  | EventCandle : Candle → Event
  | EventPosition : Position → Event
  | EventOrder : Order → Event
  | EventEquity : Equity → Event
  | EventTradeRecord : TradeRecord → Event
deriving DecidableEq, Repr

/-! ## Association-list model of the `HashMap` tables -/

/-- Keyed lookup (model of `HashMap::get`). -/
def alGet {β : Type} (k : String) : List (String × β) → Option β
  | [] => none
  | (k', v) :: rest => if k' = k then some v else alGet k rest

/-- Upserting update (model of `entry(k).and_modify(..).or_insert(..)` /
`entry(k).or_insert_with(..)` followed by an edit): the value at `k` becomes
`f` of the previous value (`f none` when absent, inserted at the back). -/
def alUpdate {β : Type} (k : String) (f : Option β → β) : List (String × β) → List (String × β)
  | [] => [(k, f none)]
  | (k', v) :: rest => if k' = k then (k, f (some v)) :: rest else (k', v) :: alUpdate k f rest

/-- Modify-only-if-present (model of `entry(k).and_modify(..)` with no
`or_insert`): absent keys are left absent. -/
def alModify {β : Type} (k : String) (f : β → β) : List (String × β) → List (String × β)
  | [] => []
  | (k', v) :: rest => if k' = k then (k, f v) :: rest else (k', v) :: alModify k f rest

/-- Replace the last element of a list, if any (model of
`if let Some(last) = v.last_mut() { *last = x }`). -/
def setLast {β : Type} (l : List β) (x : β) : List β :=
  match l with
  | [] => []
  | _ :: _ => l.dropLast ++ [x]

/-- `Context` (src/drg/model.rs): the simulation state container.
The `profits` vector is omitted: it is never touched by any code path the
claims concern (`push_profit` has no caller in the repository). -/
structure Context where
  candles : List (String × List Candle)
  positions : List (String × Position)
  trade_records : List (String × List TradeRecord)
  equities : List (String × List Equity)
  atrs : List (String × ℚ)
deriving DecidableEq, Repr

namespace Context

/-- `Context::new`. -/
def new : Context := ⟨[], [], [], [], []⟩

/-- `Context::push_candle`: keyed by `format!("{}_{}", symbol, interval)`. -/
def push_candle (ctx : Context) (c : Candle) : Context :=
  { ctx with candles := alUpdate (c.symbol ++ "_" ++ c.interval) (fun o => o.getD [] ++ [c]) ctx.candles }

/-- `Context::push_equity`. -/
def push_equity (ctx : Context) (e : Equity) : Context :=
  { ctx with equities := alUpdate e.item (fun o => o.getD [] ++ [e]) ctx.equities }

/-- `Context::push_trade_record`. -/
def push_trade_record (ctx : Context) (t : TradeRecord) : Context :=
  { ctx with trade_records := alUpdate t.item (fun o => o.getD [] ++ [t]) ctx.trade_records }

/-- `Context::update_trade_record`: `and_modify` only (a missing key is NOT
inserted), and only the last element of the vector is overwritten. -/
def update_trade_record (ctx : Context) (t : TradeRecord) : Context :=
  { ctx with trade_records := alModify t.item (fun v => setLast v t) ctx.trade_records }

/-- `Context::get_last_equity`. -/
def get_last_equity (ctx : Context) (item : String) : Option Equity :=
  (alGet item ctx.equities).bind List.getLast?

/-- `Context::get_last_trade_record`. -/
def get_last_trade_record (ctx : Context) (item : String) : Option TradeRecord :=
  (alGet item ctx.trade_records).bind List.getLast?

/-- `Context::update_position`: `and_modify(|e| *e = p).or_insert(p)`, i.e.
unconditional keyed overwrite/insert. -/
def update_position (ctx : Context) (p : Position) : Context :=
  { ctx with positions := alUpdate p.item (fun _ => p) ctx.positions }

/-- `Context::update_atr`: unconditional keyed overwrite/insert. -/
def update_atr (ctx : Context) (item : String) (atr : ℚ) : Context :=
  { ctx with atrs := alUpdate item (fun _ => atr) ctx.atrs }

/-- `Context::get_position`. -/
def get_position (ctx : Context) (item : String) : Option Position :=
  alGet item ctx.positions

/-- `Context::get_atr`. -/
def get_atr (ctx : Context) (item : String) : Option ℚ :=
  alGet item ctx.atrs

end Context

/-- `StrategyParams` (src/drg/model.rs), restricted to the fields the
simulation core reads (the bookkeeping-only fields `stg_name`,
`window_length`, `window_atr`, `is_sl`, `is_tp`, `tp_method` and the
per-item time windows configure components outside the claims). -/
structure StrategyParams where
  symbols : List String
  intervals : List String
  is_use_percent_of_equity : Bool
  percent_of_equity : ℚ
  percent_of_every_trade_money : ℚ
  n_atr_sl : ℚ
  n_atr_tp : ℚ
  initial_capital : ℚ
  trading_fee : ℚ
deriving DecidableEq, Repr

/-! ## Order execution (src/drg/strategy.rs) -/

/-- The default margin of `Strategy::buy`/`Strategy::sell` (lines 239-243 /
285-289): `initial_capital * percent_of_equity` when
`is_use_percent_of_equity`, else `initial_capital * percent_of_every_trade_money`.
Note both branches read `initial_capital`. -/
def defaultMargin (p : StrategyParams) : ℚ :=
  if p.is_use_percent_of_equity then p.initial_capital * p.percent_of_equity
  else p.initial_capital * p.percent_of_every_trade_money

/-- The committed margin (lines 235-246 / 280-292): the requested quantity
when it is positive and below the default, else the default. -/
def resolveMargin (p : StrategyParams) (qty : Option ℚ) : ℚ :=
  let qty_value := qty.getD 0
  let margin := defaultMargin p
  if 0 < qty_value ∧ qty_value < margin then qty_value else margin

/-- The equity snapshot the cash check reads (lines 247-257 / 293-303):
the item's last equity, defaulting to a fresh snapshot at the initial
capital when the item has no equity history. -/
def lastEquityOf (p : StrategyParams) (ctx : Context) (item : String) (timestamp : ℤ) : Equity :=
  (ctx.get_last_equity item).getD
    { item := item, timestamp := timestamp, equity_value := p.initial_capital,
      close_latest := 0, pos_size := 0, cash_aval := p.initial_capital }

/-- The position block of `Strategy::process_order` (src/drg/strategy.rs
lines 151-167): it runs only when the item has BOTH a prior position and a
cached ATR; it overwrites the position and sends a `Position` event. -/
def posBlock (p : StrategyParams) (ctx : Context) (order : Order) : Context × List Event :=
  let item := order.item
  let qty := order.qty
  let price := order.price
  match ctx.get_position item with
  | some last_pos =>
    match ctx.get_atr item with
    | some value =>
      let pos_avg_price := (last_pos.size * last_pos.price + qty * price) / (last_pos.size + qty)
      let position : Position :=
        { item := item
          size := if last_pos.size * qty > 0 then last_pos.size + qty else qty
          price := if last_pos.size * qty > 0 then pos_avg_price else price
          highest := if last_pos.highest > 0 then last_pos.highest else price
          lowest := if last_pos.lowest > 0 then last_pos.lowest else price
          stop_loss := pos_avg_price - p.n_atr_sl * value
          take_profit := pos_avg_price + p.n_atr_tp * value
          timestamp := order.timestamp }
      (ctx.update_position position, [Event.EventPosition position])
    | none => (ctx, [])
  | none => (ctx, [])

/-- The trade-record block of `Strategy::process_order` (src/drg/strategy.rs
lines 168-225): merge into, or close, the item's last trade record in
place; a freshly opened record is only SENT as a `TradeRecord` event (the
dispatch loop appends it when it consumes the event). -/
def trBlock (ctx : Context) (order : Order) : Context × List Event :=
  let item := order.item
  let qty := order.qty
  let price := order.price
  let timestamp := order.timestamp
  match ctx.get_last_trade_record item with
  | some last_trade_record =>
    if last_trade_record.size * qty > 0 then
      let size := last_trade_record.size + qty
      let price_open := (last_trade_record.price_open * last_trade_record.size + price * qty) / size
      let tr : TradeRecord :=
        { item := item, side := last_trade_record.side, size := size, price_open := price_open
          time_open := timestamp, price_close := 0, time_close := 0, label_close := "" }
      (ctx.update_trade_record tr, [])
    else
      let tr_close : TradeRecord :=
        { item := item, side := last_trade_record.side, size := last_trade_record.size
          price_open := last_trade_record.price_open, time_open := last_trade_record.time_open
          price_close := price, time_close := timestamp, label_close := "Close" }
      let ctx2 := ctx.update_trade_record tr_close
      let tr : TradeRecord :=
        { item := item, side := if qty > 0 then "buy" else "sell", size := qty
          price_open := price, time_open := timestamp
          price_close := 0, time_close := 0, label_close := "" }
      (ctx2, [Event.EventTradeRecord tr])
  | none =>
    let tr : TradeRecord :=
      { item := item, side := if qty > 0 then "buy" else "sell", size := qty
        price_open := price, time_open := timestamp
        price_close := 0, time_close := 0, label_close := "" }
    (ctx, [Event.EventTradeRecord tr])

/-- `Strategy::process_order` (src/drg/strategy.rs lines 146-227): the
position block, then the trade-record block, then the `Order` event is
sent.  The returned events are in send order: `Position` (when emitted),
`TradeRecord` (when emitted), `Order`. -/
def processOrder (p : StrategyParams) (ctx : Context) (order : Order) : Context × List Event :=
  let s1 := posBlock p ctx order
  let s2 := trBlock s1.1 order
  (s2.1, s1.2 ++ s2.2 ++ [Event.EventOrder order])

/-- `Strategy::buy` (src/drg/strategy.rs lines 228-278). -/
def buy (p : StrategyParams) (ctx : Context) (item : String) (price : ℚ) (timestamp : ℤ)
    (qty : Option ℚ) : Context × List Event :=
  let margin := resolveMargin p qty
  let last_equity := lastEquityOf p ctx item timestamp
  if margin * (1 + p.trading_fee) < last_equity.cash_aval then
    let q := margin / price
    let order : Order := { item := item, price := price, qty := q, timestamp := timestamp }
    let step := processOrder p ctx order
    let equity : Equity :=
      { item := item, timestamp := timestamp
        equity_value := last_equity.equity_value - margin * p.trading_fee
        close_latest := price
        pos_size := if last_equity.pos_size > 0 then last_equity.pos_size + q else q
        cash_aval := last_equity.cash_aval - margin * (1 + p.trading_fee) }
    (step.1, step.2 ++ [Event.EventEquity equity])
  else (ctx, [])

/-- `Strategy::sell` (src/drg/strategy.rs lines 279-324): identical to
`buy` except the fill quantity is `-margin/price` and the `pos_size`
carry-over condition is `last.pos_size < 0`. -/
def sell (p : StrategyParams) (ctx : Context) (item : String) (price : ℚ) (timestamp : ℤ)
    (qty : Option ℚ) : Context × List Event :=
  let margin := resolveMargin p qty
  let last_equity := lastEquityOf p ctx item timestamp
  if margin * (1 + p.trading_fee) < last_equity.cash_aval then
    let q := -margin / price
    let order : Order := { item := item, price := price, qty := q, timestamp := timestamp }
    let step := processOrder p ctx order
    let equity : Equity :=
      { item := item, timestamp := timestamp
        equity_value := last_equity.equity_value - margin * p.trading_fee
        close_latest := price
        pos_size := if last_equity.pos_size < 0 then last_equity.pos_size + q else q
        cash_aval := last_equity.cash_aval - margin * (1 + p.trading_fee) }
    (step.1, step.2 ++ [Event.EventEquity equity])
  else (ctx, [])

/-! ## Event filters (used to state claims about emitted events) -/

/-- The `TradeRecord` payloads among a list of events. -/
def trEvents : List Event → List TradeRecord
  | [] => []
  | Event.EventTradeRecord t :: rest => t :: trEvents rest
  | _ :: rest => trEvents rest

/-- The `Order` payloads among a list of events. -/
def orderEvents : List Event → List Order
  | [] => []
  | Event.EventOrder o :: rest => o :: orderEvents rest
  | _ :: rest => orderEvents rest

/-- The `Equity` payloads among a list of events. -/
def equityEvents : List Event → List Equity
  | [] => []
  | Event.EventEquity e :: rest => e :: equityEvents rest
  | _ :: rest => equityEvents rest

/-- The `Position` payloads among a list of events. -/
def posEvents : List Event → List Position
  | [] => []
  | Event.EventPosition q :: rest => q :: posEvents rest
  | _ :: rest => posEvents rest

/-! ## Dispatch loop and runtime (src/drg/strategy.rs lines 49-145)

The dispatch loop `Strategy::handle_events` drains one unbounded FIFO
channel.  The strategy callback `on_candle` (pluggable policy, out of the
core's scope) may mutate the context through `update_atr` and may call
`buy`/`sell`, whose events are sent onto the same FIFO bus.  A policy is
modelled as the list of such effectful calls it makes for a candle. -/

/-- One effectful call available to the on-candle callback. -/
inductive Action where
  | actBuy : String → ℚ → ℤ → Option ℚ → Action
  | actSell : String → ℚ → ℤ → Option ℚ → Action
  | actUpdateAtr : String → ℚ → Action
deriving DecidableEq, Repr

/-- A strategy policy: the effectful calls `on_candle` makes, as a function
of the context it observes and the candle. -/
abbrev Policy : Type := Context → Candle → List Action

/-- Execute one policy action (a `buy`/`sell`/`update_atr` call). -/
def applyAction (p : StrategyParams) (ctx : Context) : Action → Context × List Event
  | Action.actBuy item price ts q => buy p ctx item price ts q
  | Action.actSell item price ts q => sell p ctx item price ts q
  | Action.actUpdateAtr item v => (ctx.update_atr item v, [])

/-- Execute a list of policy actions in order, concatenating the events
they send onto the bus. -/
def runActions (p : StrategyParams) (ctx : Context) : List Action → Context × List Event
  | [] => (ctx, [])
  | a :: rest =>
    let s := applyAction p ctx a
    let s' := runActions p s.1 rest
    (s'.1, s.2 ++ s'.2)

/-- The context mutation `handle_events` performs for one received event
(lines 55-78): `Candle` is pushed to the bar history, `Equity` and
`TradeRecord` are pushed to their histories, `Position`/`Order`/`Finish`
only invoke callbacks. -/
def applyEvent (ctx : Context) : Event → Context
  | Event.EventCandle c => ctx.push_candle c
  | Event.EventEquity e => ctx.push_equity e
  | Event.EventTradeRecord t => ctx.push_trade_record t
  | _ => ctx

/-- Apply a list of received events to the context in order. -/
def applyEvents (ctx : Context) : List Event → Context
  | [] => ctx
  | e :: rest => applyEvents (applyEvent ctx e) rest

/-- `Strategy::handle_events` (lines 49-95), fuelled: repeatedly receive
the event at the FRONT of the FIFO queue, apply its context mutation,
invoke the callback (for a candle: run the policy, whose `buy`/`sell`
events are appended at the BACK of the same queue), stop on `Finish`.
Returns the final context and the trace of events in consumption order.
The quiescence timeout on an empty queue is modelled separately
(`qstep`); here an empty queue simply ends the run. -/
def dispatchF (p : StrategyParams) (pol : Policy) : ℕ → Context → List Event → Context × List Event
  | 0, ctx, _ => (ctx, [])
  | _ + 1, ctx, [] => (ctx, [])
  | _ + 1, ctx, Event.EventFinish :: _ => (ctx, [Event.EventFinish])
  | n + 1, ctx, Event.EventCandle c :: rest =>
    let ctx1 := ctx.push_candle c
    let gen := runActions p ctx1 (pol ctx1 c)
    let s := dispatchF p pol n gen.1 (rest ++ gen.2)
    (s.1, Event.EventCandle c :: s.2)
  | n + 1, ctx, e :: rest =>
    let s := dispatchF p pol n (applyEvent ctx e) rest
    (s.1, e :: s.2)

/-- `Strategy::init` (lines 117-145): for every configured symbol and
interval, push an initial `Equity` snapshot at the starting capital and a
flat `Position`, both stamped with the wall-clock time `now`
(`get_timestamp_ms`, lines 20-25). -/
def initContext (p : StrategyParams) (now : ℤ) : Context :=
  p.symbols.foldl
    (fun ctx symbol =>
      p.intervals.foldl
        (fun ctx interval =>
          let item := symbol ++ "_" ++ interval
          let ctx := ctx.push_equity
            { item := item, timestamp := now, equity_value := p.initial_capital
              close_latest := 0, pos_size := 0, cash_aval := p.initial_capital }
          ctx.update_position
            { item := item, size := 0, price := 0, highest := 0, lowest := 0
              stop_loss := 0, take_profit := 0, timestamp := now })
        ctx)
    Context.new

/-- `Strategy::run` on a replayed bar sequence: init the context at
wall-clock time `now`, place the candles on the bus in order, drain. -/
def runSystem (p : StrategyParams) (pol : Policy) (fuel : ℕ) (now : ℤ)
    (candles : List Candle) : Context × List Event :=
  dispatchF p pol fuel (initContext p now) (candles.map Event.EventCandle)

/-- The final `(positions, equities, trade_records)` state of a run. -/
def finalState (ctx : Context) :
    List (String × Position) × List (String × List Equity) × List (String × List TradeRecord) :=
  (ctx.positions, ctx.equities, ctx.trade_records)

/-! ## Quiescence model (src/drg/strategy.rs lines 50-93)

`handle_events` records `start_time` at every received event and, when a
`try_recv` poll finds the queue empty, compares the elapsed time against
the 20-unit timeout and sends one `EventFinish` onto the bus when it is
exceeded.  Real time is abstracted to one discrete unit per empty poll
iteration; `idle` is the time since the last received event, `arr` is the
schedule of externally arriving events. -/

structure QState where
  time : ℕ
  idle : ℕ
  queue : List Event
  sentFinish : ℕ
  finishCalls : ℕ
  done : Bool
deriving DecidableEq, Repr

/-- One iteration of the `handle_events` polling loop: any event arriving
now joins the back of the queue; a non-empty queue yields its front
(resetting the idle clock, breaking with an `on_finish` call on `Finish`);
an empty queue consumes one idle time unit, and past the 20-unit timeout
the loop sends a synthetic `Finish` to its own queue. -/
def qstep (arr : ℕ → Option Event) (s : QState) : QState :=
  if s.done then s
  else
    let q := match arr s.time with
      | some e => s.queue ++ [e]
      | none => s.queue
    match q with
    | Event.EventFinish :: rest =>
      { s with time := s.time + 1, idle := 0, queue := rest
               finishCalls := s.finishCalls + 1, done := true }
    | _ :: rest =>
      { s with time := s.time + 1, idle := 0, queue := rest }
    | [] =>
      if s.idle > 20 then
        { s with time := s.time + 1, idle := s.idle + 1
                 queue := [Event.EventFinish], sentFinish := s.sentFinish + 1 }
      else { s with time := s.time + 1, idle := s.idle + 1 }

/-- The loop state right after the last event of the stream has been
received: idle clock reset, queue drained, loop still running. -/
def qInit : QState :=
  { time := 0, idle := 0, queue := [], sentFinish := 0, finishCalls := 0, done := false }

/-! ## Spec-side definitions (used to state the claims against the code) -/

/-- The trade-record history of one item (empty when the item is unknown). -/
def trOf (ctx : Context) (item : String) : List TradeRecord :=
  (alGet item ctx.trade_records).getD []

/-- The freshly opened trade record for a fill, per the spec: side `buy`
iff the signed quantity is positive, open at the fill's price and
timestamp. -/
def newOpenRecord (item : String) (qty price : ℚ) (ts : ℤ) : TradeRecord :=
  { item := item, side := if qty > 0 then "buy" else "sell", size := qty
    price_open := price, time_open := ts, price_close := 0, time_close := 0, label_close := "" }

/-- The trade-record update as the spec describes it
(spec.md section 4.4 step 5), as a function of the item's current record
history: no open trade ⇒ append a new open record and emit it; tail with
the same sign ⇒ merge into the tail in place (accumulated size,
size-weighted open price, updated open time), no event; tail with the
opposite sign ⇒ close the tail (fill price/time, label "Close"), append a
new open record, emit the new record only.  The zero-sign-product case is
outside the claim and is mapped to a no-op.
Returns (new record history, emitted `TradeRecord` events). -/
def specTradeUpdate (item : String) (qty price : ℚ) (ts : ℤ) (rs : List TradeRecord) :
    List TradeRecord × List TradeRecord :=
  match rs.getLast? with
  | none =>
    let tr := newOpenRecord item qty price ts
    (rs ++ [tr], [tr])
  | some last =>
    if last.size * qty > 0 then
      let merged : TradeRecord :=
        { item := item, side := last.side, size := last.size + qty
          price_open := (last.price_open * last.size + price * qty) / (last.size + qty)
          time_open := ts, price_close := 0, time_close := 0, label_close := "" }
      (rs.dropLast ++ [merged], [])
    else if last.size * qty < 0 then
      let closed : TradeRecord :=
        { item := item, side := last.side, size := last.size
          price_open := last.price_open, time_open := last.time_open
          price_close := price, time_close := ts, label_close := "Close" }
      let tr := newOpenRecord item qty price ts
      (rs.dropLast ++ [closed, tr], [tr])
    else (rs, [])

/-- Per-item lengths of the trade-record histories. -/
def trShape (ctx : Context) : List (String × ℕ) :=
  ctx.trade_records.map (fun kv => (kv.1, kv.2.length))

/-- Per-item trade-record histories with the (in-place-editable) tail
dropped. -/
def trInit (ctx : Context) : List (String × List TradeRecord) :=
  ctx.trade_records.map (fun kv => (kv.1, kv.2.dropLast))

/-- An event is passive when consuming it generates no further events:
`Position`/`Order`/`Equity`/`TradeRecord` only update the context and
invoke a callback. -/
def isPassive : Event → Bool
  | Event.EventPosition _ => true
  | Event.EventOrder _ => true
  | Event.EventEquity _ => true
  | Event.EventTradeRecord _ => true
  | _ => false

/-- Processing one candle: push it to the bar history, run the policy; the
result is the mutated context and the events the policy's `buy`/`sell`
calls sent onto the bus. -/
def candleGen (p : StrategyParams) (pol : Policy) (ctx : Context) (c : Candle) :
    Context × List Event :=
  let ctx1 := ctx.push_candle c
  runActions p ctx1 (pol ctx1 c)

/-- The empty arrival schedule: no event ever arrives. -/
def noArrivals : ℕ → Option Event := fun _ => none

/-- The invariant justifying claim C3's ATR side condition: every item
holding a nonzero position has a cached ATR.  It holds in every reachable
state because `posBlock` only ever writes a position under `get_atr =
some _`, seeded positions are flat, and ATRs are never removed. -/
def PosAtrInv (ctx : Context) : Prop :=
  ∀ item pos, ctx.get_position item = some pos → pos.size ≠ 0 →
    ∃ a, ctx.get_atr item = some a

/-- All tracked positions are flat; `Strategy::init` seeds exactly such a
context, which trivially satisfies `PosAtrInv`. -/
def AllFlat (ctx : Context) : Prop :=
  ∀ item pos, ctx.get_position item = some pos → pos.size = 0

/-! ## Concrete inputs for witnesses and counterexamples -/

/-- Reference configuration of the C8 scenario: initial capital 4000, fee
0.001, fixed-money sizing resolving to an order size of 100. -/
def pRef : StrategyParams :=
  { symbols := ["X"], intervals := ["1d"], is_use_percent_of_equity := false
    percent_of_equity := 1/2, percent_of_every_trade_money := 1/40
    n_atr_sl := 2, n_atr_tp := 5, initial_capital := 4000, trading_fee := 1/1000 }

/-- A configuration with unit ATR multipliers and no fee. -/
def pUnit : StrategyParams :=
  { symbols := ["A"], intervals := ["1d"], is_use_percent_of_equity := false
    percent_of_equity := 1/2, percent_of_every_trade_money := 1/40
    n_atr_sl := 1, n_atr_tp := 1, initial_capital := 4000, trading_fee := 0 }

/-- A long position of size 1 opened at price 100. -/
def posLong : Position :=
  { item := "X", size := 1, price := 100, highest := 100, lowest := 100
    stop_loss := 0, take_profit := 0, timestamp := 0 }

/-- A context holding `posLong` and a cached ATR of 10 for item "X". -/
def ctxLong : Context :=
  { candles := [], positions := [("X", posLong)], trade_records := [], equities := []
    atrs := [("X", 10)] }

/-- A same-sign fill of quantity 1 at price 200 on item "X". -/
def oSame : Order := { item := "X", price := 200, qty := 1, timestamp := 5 }

/-- A candle for item "A_1d" at timestamp 1. -/
def cA : Candle :=
  { symbol := "A", timestamp := 1, open_ := 100, high := 100, low := 100
    close := 100, volume := 1, interval := "1d" }

/-- A second candle for item "A_1d" at timestamp 2. -/
def cB : Candle :=
  { symbol := "A", timestamp := 2, open_ := 100, high := 100, low := 100
    close := 100, volume := 1, interval := "1d" }

/-- A policy that buys at the close of every candle. -/
def polBuyer : Policy := fun _ c =>
  [Action.actBuy (c.symbol ++ "_" ++ c.interval) c.close c.timestamp none]

/-- percent-of-equity configuration: fraction 1/10 of an initial capital
of 1000, no fee. -/
def pPct : StrategyParams :=
  { symbols := ["X"], intervals := ["1d"], is_use_percent_of_equity := true
    percent_of_equity := 1/10, percent_of_every_trade_money := 1/2
    n_atr_sl := 2, n_atr_tp := 5, initial_capital := 1000, trading_fee := 0 }

/-- An equity snapshot whose current equity (2000) differs from the
initial capital of `pPct` (1000). -/
def eqGrown : Equity :=
  { item := "X", timestamp := 0, equity_value := 2000, close_latest := 0
    pos_size := 0, cash_aval := 2000 }

/-- A context whose latest equity for "X" is `eqGrown`. -/
def ctxGrown : Context :=
  { candles := [], positions := [], trade_records := [], equities := [("X", [eqGrown])], atrs := [] }

/-- A configuration whose whole capital is one default margin, so any
order fails the cash check. -/
def pPoor : StrategyParams :=
  { symbols := ["X"], intervals := ["1d"], is_use_percent_of_equity := false
    percent_of_equity := 1/2, percent_of_every_trade_money := 1
    n_atr_sl := 2, n_atr_tp := 5, initial_capital := 100, trading_fee := 0 }


/-- The position the position block writes when a prior position `lp` and
a cached ATR `a` exist (src/drg/strategy.rs lines 153-163). -/
def posUpdated (p : StrategyParams) (lp : Position) (a : ℚ) (o : Order) : Position :=
  { item := o.item
    size := if lp.size * o.qty > 0 then lp.size + o.qty else o.qty
    price := if lp.size * o.qty > 0 then
        (lp.size * lp.price + o.qty * o.price) / (lp.size + o.qty)
      else o.price
    highest := if lp.highest > 0 then lp.highest else o.price
    lowest := if lp.lowest > 0 then lp.lowest else o.price
    stop_loss := (lp.size * lp.price + o.qty * o.price) / (lp.size + o.qty) - p.n_atr_sl * a
    take_profit := (lp.size * lp.price + o.qty * o.price) / (lp.size + o.qty) + p.n_atr_tp * a
    timestamp := o.timestamp }

/-- The terminal loop state the quiescence run reaches: one synthesized
`Finish`, one `on_finish` call, loop exited. -/
def qDone : QState :=
  { time := 23, idle := 0, queue := [], sentFinish := 1, finishCalls := 1, done := true }

/-! ## Supporting lemmas: association lists -/

theorem alGet_alUpdate_self {β : Type} (k : String) (f : Option β → β) (l : List (String × β)) :
    alGet k (alUpdate k f l) = some (f (alGet k l)) := by
  induction l with
  | nil => simp [alGet, alUpdate]
  | cons kv rest ih =>
    obtain ⟨k', v⟩ := kv
    by_cases hk : k' = k
    · subst hk; simp [alGet, alUpdate]
    · simp [alGet, alUpdate, hk, ih]

theorem alGet_alUpdate_ne {β : Type} (k k' : String) (hk : k' ≠ k) (f : Option β → β)
    (l : List (String × β)) : alGet k' (alUpdate k f l) = alGet k' l := by
  induction l with
  | nil => simp [alGet, alUpdate, Ne.symm hk]
  | cons kv rest ih =>
    obtain ⟨k'', v⟩ := kv
    by_cases hk2 : k'' = k
    · subst hk2; simp [alGet, alUpdate, Ne.symm hk]
    · simp [alGet, alUpdate, hk2, ih]

theorem alGet_alModify_self {β : Type} (k : String) (f : β → β) (l : List (String × β)) :
    alGet k (alModify k f l) = (alGet k l).map f := by
  induction l with
  | nil => simp [alGet, alModify]
  | cons kv rest ih =>
    obtain ⟨k', v⟩ := kv
    by_cases hk : k' = k
    · subst hk; simp [alGet, alModify]
    · simp [alGet, alModify, hk, ih]

theorem alModify_map_eq {β γ : Type} (k : String) (f : β → β) (g : β → γ)
    (h : ∀ v, g (f v) = g v) (l : List (String × β)) :
    (alModify k f l).map (fun kv => (kv.1, g kv.2)) = l.map (fun kv => (kv.1, g kv.2)) := by
  induction l with
  | nil => rfl
  | cons kv rest ih =>
    obtain ⟨k', v⟩ := kv
    by_cases hk : k' = k
    · subst hk; simp [alModify, h]
    · simp [alModify, hk, ih]

theorem setLast_length {β : Type} (l : List β) (x : β) : (setLast l x).length = l.length := by
  cases l with
  | nil => rfl
  | cons a as => simp [setLast]

theorem setLast_dropLast {β : Type} (l : List β) (x : β) : (setLast l x).dropLast = l.dropLast := by
  cases l with
  | nil => rfl
  | cons a as => simp [setLast, List.dropLast_concat]

/-! ## Supporting lemmas: fields untouched by each operation -/

theorem posBlock_trade_records (p : StrategyParams) (ctx : Context) (o : Order) :
    (posBlock p ctx o).1.trade_records = ctx.trade_records := by
  rcases hp : ctx.get_position o.item with _ | lp <;>
    rcases ha : ctx.get_atr o.item with _ | a <;>
      simp [posBlock, hp, ha, Context.update_position]

theorem posBlock_equities (p : StrategyParams) (ctx : Context) (o : Order) :
    (posBlock p ctx o).1.equities = ctx.equities := by
  rcases hp : ctx.get_position o.item with _ | lp <;>
    rcases ha : ctx.get_atr o.item with _ | a <;>
      simp [posBlock, hp, ha, Context.update_position]

theorem posBlock_candles (p : StrategyParams) (ctx : Context) (o : Order) :
    (posBlock p ctx o).1.candles = ctx.candles := by
  rcases hp : ctx.get_position o.item with _ | lp <;>
    rcases ha : ctx.get_atr o.item with _ | a <;>
      simp [posBlock, hp, ha, Context.update_position]

theorem posBlock_atrs (p : StrategyParams) (ctx : Context) (o : Order) :
    (posBlock p ctx o).1.atrs = ctx.atrs := by
  rcases hp : ctx.get_position o.item with _ | lp <;>
    rcases ha : ctx.get_atr o.item with _ | a <;>
      simp [posBlock, hp, ha, Context.update_position]

/-- The position block sends either nothing or a single `Position` event. -/
theorem posBlock_events (p : StrategyParams) (ctx : Context) (o : Order) :
    (posBlock p ctx o).2 = [] ∨ ∃ q, (posBlock p ctx o).2 = [Event.EventPosition q] := by
  rcases hp : ctx.get_position o.item with _ | lp
  · exact Or.inl (by simp [posBlock, hp])
  · rcases ha : ctx.get_atr o.item with _ | a
    · exact Or.inl (by simp [posBlock, hp, ha])
    · right
      simp only [posBlock, hp, ha]
      exact ⟨_, rfl⟩

theorem trBlock_positions (ctx : Context) (o : Order) :
    (trBlock ctx o).1.positions = ctx.positions := by
  rcases hl : ctx.get_last_trade_record o.item with _ | last
  · simp [trBlock, hl]
  · by_cases hs : last.size * o.qty > 0 <;>
      simp [trBlock, hl, hs, Context.update_trade_record]

theorem trBlock_equities (ctx : Context) (o : Order) :
    (trBlock ctx o).1.equities = ctx.equities := by
  rcases hl : ctx.get_last_trade_record o.item with _ | last
  · simp [trBlock, hl]
  · by_cases hs : last.size * o.qty > 0 <;>
      simp [trBlock, hl, hs, Context.update_trade_record]

theorem trBlock_candles (ctx : Context) (o : Order) :
    (trBlock ctx o).1.candles = ctx.candles := by
  rcases hl : ctx.get_last_trade_record o.item with _ | last
  · simp [trBlock, hl]
  · by_cases hs : last.size * o.qty > 0 <;>
      simp [trBlock, hl, hs, Context.update_trade_record]

theorem trBlock_atrs (ctx : Context) (o : Order) :
    (trBlock ctx o).1.atrs = ctx.atrs := by
  rcases hl : ctx.get_last_trade_record o.item with _ | last
  · simp [trBlock, hl]
  · by_cases hs : last.size * o.qty > 0 <;>
      simp [trBlock, hl, hs, Context.update_trade_record]

/-- The trade-record block sends either nothing or a single `TradeRecord`
event. -/
theorem trBlock_events (ctx : Context) (o : Order) :
    (trBlock ctx o).2 = [] ∨ ∃ t, (trBlock ctx o).2 = [Event.EventTradeRecord t] := by
  rcases hl : ctx.get_last_trade_record o.item with _ | last
  · right
    simp only [trBlock, hl]
    exact ⟨_, rfl⟩
  · by_cases hs : last.size * o.qty > 0
    · exact Or.inl (by simp [trBlock, hl, hs])
    · right
      simp only [trBlock, hl, if_neg hs]
      exact ⟨_, rfl⟩

/-! ## Supporting lemmas: event filters and event application -/

theorem trEvents_append (a b : List Event) :
    trEvents (a ++ b) = trEvents a ++ trEvents b := by
  induction a with
  | nil => rfl
  | cons e rest ih => cases e <;> simp [trEvents, ih]

theorem orderEvents_append (a b : List Event) :
    orderEvents (a ++ b) = orderEvents a ++ orderEvents b := by
  induction a with
  | nil => rfl
  | cons e rest ih => cases e <;> simp [orderEvents, ih]

theorem equityEvents_append (a b : List Event) :
    equityEvents (a ++ b) = equityEvents a ++ equityEvents b := by
  induction a with
  | nil => rfl
  | cons e rest ih => cases e <;> simp [equityEvents, ih]

theorem posEvents_append (a b : List Event) :
    posEvents (a ++ b) = posEvents a ++ posEvents b := by
  induction a with
  | nil => rfl
  | cons e rest ih => cases e <;> simp [posEvents, ih]

theorem applyEvents_append (ctx : Context) (a b : List Event) :
    applyEvents ctx (a ++ b) = applyEvents (applyEvents ctx a) b := by
  induction a generalizing ctx with
  | nil => rfl
  | cons e rest ih => simp [applyEvents, ih]

theorem posBlock_trEvents (p : StrategyParams) (ctx : Context) (o : Order) :
    trEvents (posBlock p ctx o).2 = [] := by
  rcases posBlock_events p ctx o with h | ⟨q, h⟩ <;> simp [h, trEvents]

theorem posBlock_orderEvents (p : StrategyParams) (ctx : Context) (o : Order) :
    orderEvents (posBlock p ctx o).2 = [] := by
  rcases posBlock_events p ctx o with h | ⟨q, h⟩ <;> simp [h, orderEvents]

theorem posBlock_equityEvents (p : StrategyParams) (ctx : Context) (o : Order) :
    equityEvents (posBlock p ctx o).2 = [] := by
  rcases posBlock_events p ctx o with h | ⟨q, h⟩ <;> simp [h, equityEvents]

theorem trBlock_posEvents (ctx : Context) (o : Order) :
    posEvents (trBlock ctx o).2 = [] := by
  rcases trBlock_events ctx o with h | ⟨t, h⟩ <;> simp [h, posEvents]

theorem trBlock_orderEvents (ctx : Context) (o : Order) :
    orderEvents (trBlock ctx o).2 = [] := by
  rcases trBlock_events ctx o with h | ⟨t, h⟩ <;> simp [h, orderEvents]

theorem trBlock_equityEvents (ctx : Context) (o : Order) :
    equityEvents (trBlock ctx o).2 = [] := by
  rcases trBlock_events ctx o with h | ⟨t, h⟩ <;> simp [h, equityEvents]

/-- Consuming the position block's events mutates nothing: `Position`
events only invoke a callback in `handle_events`. -/
theorem applyEvents_posBlock (c : Context) (p : StrategyParams) (ctx : Context) (o : Order) :
    applyEvents c (posBlock p ctx o).2 = c := by
  rcases posBlock_events p ctx o with h | ⟨q, h⟩ <;> simp [h, applyEvents, applyEvent]

/-! ## Supporting lemmas: `processOrder` -/

theorem processOrder_equities (p : StrategyParams) (ctx : Context) (o : Order) :
    (processOrder p ctx o).1.equities = ctx.equities := by
  simp [processOrder, trBlock_equities, posBlock_equities]

theorem processOrder_candles (p : StrategyParams) (ctx : Context) (o : Order) :
    (processOrder p ctx o).1.candles = ctx.candles := by
  simp [processOrder, trBlock_candles, posBlock_candles]

theorem processOrder_atrs (p : StrategyParams) (ctx : Context) (o : Order) :
    (processOrder p ctx o).1.atrs = ctx.atrs := by
  simp [processOrder, trBlock_atrs, posBlock_atrs]

theorem processOrder_orderEvents (p : StrategyParams) (ctx : Context) (o : Order) :
    orderEvents (processOrder p ctx o).2 = [o] := by
  simp [processOrder, orderEvents_append, posBlock_orderEvents, trBlock_orderEvents, orderEvents]

theorem processOrder_equityEvents (p : StrategyParams) (ctx : Context) (o : Order) :
    equityEvents (processOrder p ctx o).2 = [] := by
  simp [processOrder, equityEvents_append, posBlock_equityEvents, trBlock_equityEvents, equityEvents]

theorem processOrder_trEvents (p : StrategyParams) (ctx : Context) (o : Order) :
    trEvents (processOrder p ctx o).2 = trEvents (trBlock (posBlock p ctx o).1 o).2 := by
  simp [processOrder, trEvents_append, posBlock_trEvents, trEvents]

theorem processOrder_posEvents (p : StrategyParams) (ctx : Context) (o : Order) :
    posEvents (processOrder p ctx o).2 = posEvents (posBlock p ctx o).2 := by
  simp [processOrder, posEvents_append, trBlock_posEvents, posEvents]


/-! ## Further supporting lemmas: the position block's three outcomes -/

theorem posBlock_some (p : StrategyParams) (ctx : Context) (o : Order) (lp : Position) (a : ℚ)
    (hp : ctx.get_position o.item = some lp) (ha : ctx.get_atr o.item = some a) :
    posBlock p ctx o =
      (ctx.update_position (posUpdated p lp a o), [Event.EventPosition (posUpdated p lp a o)]) := by
  simp [posBlock, posUpdated, hp, ha]

theorem posBlock_no_position (p : StrategyParams) (ctx : Context) (o : Order)
    (hp : ctx.get_position o.item = none) : posBlock p ctx o = (ctx, []) := by
  simp [posBlock, hp]

theorem posBlock_no_atr (p : StrategyParams) (ctx : Context) (o : Order)
    (ha : ctx.get_atr o.item = none) : posBlock p ctx o = (ctx, []) := by
  rcases hp : ctx.get_position o.item with _ | lp <;> simp [posBlock, hp, ha]

theorem processOrder_positions (p : StrategyParams) (ctx : Context) (o : Order) :
    (processOrder p ctx o).1.positions = (posBlock p ctx o).1.positions := by
  simp [processOrder, trBlock_positions]

theorem get_position_update_self (ctx : Context) (q : Position) :
    (ctx.update_position q).get_position q.item = some q := by
  simp [Context.get_position, Context.update_position, alGet_alUpdate_self]

theorem get_last_equity_congr (ctx1 ctx2 : Context) (h : ctx1.equities = ctx2.equities)
    (item : String) : ctx1.get_last_equity item = ctx2.get_last_equity item := by
  unfold Context.get_last_equity
  rw [h]

theorem trShape_congr (ctx1 ctx2 : Context) (h : ctx1.trade_records = ctx2.trade_records) :
    trShape ctx1 = trShape ctx2 := by
  unfold trShape
  rw [h]

theorem trInit_congr (ctx1 ctx2 : Context) (h : ctx1.trade_records = ctx2.trade_records) :
    trInit ctx1 = trInit ctx2 := by
  unfold trInit
  rw [h]

theorem update_trade_record_trShape (ctx : Context) (t : TradeRecord) :
    trShape (ctx.update_trade_record t) = trShape ctx := by
  unfold trShape Context.update_trade_record
  exact alModify_map_eq _ _ _ (fun v => setLast_length v t) _

theorem update_trade_record_trInit (ctx : Context) (t : TradeRecord) :
    trInit (ctx.update_trade_record t) = trInit ctx := by
  unfold trInit Context.update_trade_record
  exact alModify_map_eq _ _ _ (fun v => setLast_dropLast v t) _

theorem trBlock_trShape (ctx : Context) (o : Order) :
    trShape (trBlock ctx o).1 = trShape ctx := by
  rcases hl : ctx.get_last_trade_record o.item with _ | last
  · simp [trBlock, hl]
  · by_cases hs : last.size * o.qty > 0 <;>
      simp [trBlock, hl, hs, update_trade_record_trShape]

theorem trBlock_trInit (ctx : Context) (o : Order) :
    trInit (trBlock ctx o).1 = trInit ctx := by
  rcases hl : ctx.get_last_trade_record o.item with _ | last
  · simp [trBlock, hl]
  · by_cases hs : last.size * o.qty > 0 <;>
      simp [trBlock, hl, hs, update_trade_record_trInit]

theorem processOrder_trShape (p : StrategyParams) (ctx : Context) (o : Order) :
    trShape (processOrder p ctx o).1 = trShape ctx := by
  have h1 := trBlock_trShape (posBlock p ctx o).1 o
  have h2 := trShape_congr (posBlock p ctx o).1 ctx (posBlock_trade_records p ctx o)
  simp only [processOrder]
  exact h1.trans h2

theorem processOrder_trInit (p : StrategyParams) (ctx : Context) (o : Order) :
    trInit (processOrder p ctx o).1 = trInit ctx := by
  have h1 := trBlock_trInit (posBlock p ctx o).1 o
  have h2 := trInit_congr (posBlock p ctx o).1 ctx (posBlock_trade_records p ctx o)
  simp only [processOrder]
  exact h1.trans h2

/-- The context `buy` returns is either untouched (rejection) or the
`processOrder` context for the order it built. -/
theorem buy_ctx_cases (p : StrategyParams) (ctx : Context) (item : String) (price : ℚ)
    (ts : ℤ) (q : Option ℚ) :
    (buy p ctx item price ts q).1 = ctx ∨
      ∃ o, (buy p ctx item price ts q).1 = (processOrder p ctx o).1 := by
  simp only [buy]
  split
  · exact Or.inr ⟨_, rfl⟩
  · exact Or.inl rfl

/-- The context `sell` returns is either untouched (rejection) or the
`processOrder` context for the order it built. -/
theorem sell_ctx_cases (p : StrategyParams) (ctx : Context) (item : String) (price : ℚ)
    (ts : ℤ) (q : Option ℚ) :
    (sell p ctx item price ts q).1 = ctx ∨
      ∃ o, (sell p ctx item price ts q).1 = (processOrder p ctx o).1 := by
  simp only [sell]
  split
  · exact Or.inr ⟨_, rfl⟩
  · exact Or.inl rfl

/-! ## Quiescence-loop lemmas -/

theorem qstep_noArr (arr : ℕ → Option Event) (h : ∀ t, arr t = none) (s : QState) :
    qstep arr s = qstep noArrivals s := by
  unfold qstep
  rw [h s.time]
  rfl

theorem qstep_iterate_noArr (arr : ℕ → Option Event) (h : ∀ t, arr t = none) :
    ∀ (k : ℕ) (s : QState), (qstep arr)^[k] s = (qstep noArrivals)^[k] s := by
  intro k
  induction k with
  | zero => intro s; rfl
  | succ n ih =>
    intro s
    rw [Function.iterate_succ_apply, Function.iterate_succ_apply, qstep_noArr arr h, ih]



theorem setLast_of_ne_nil {β : Type} (l : List β) (x : β) (h : l ≠ []) :
    setLast l x = l.dropLast ++ [x] := by
  cases l with
  | nil => exact absurd rfl h
  | cons a as => rfl

/-- Draining the events of `processOrder` into its own context reduces to
draining the trade-record block's events: `Position` and `Order` events
mutate nothing. -/
theorem processOrder_drained (p : StrategyParams) (ctx : Context) (o : Order) :
    applyEvents (processOrder p ctx o).1 (processOrder p ctx o).2 =
      applyEvents (trBlock (posBlock p ctx o).1 o).1 (trBlock (posBlock p ctx o).1 o).2 := by
  simp only [processOrder]
  rw [applyEvents_append, applyEvents_append, applyEvents_posBlock]
  rfl

/-! ## Reachability invariant: nonzero positions imply a cached ATR

`posBlock` only ever writes a position when `get_atr` is `some`, seeded
positions are flat, and nothing ever removes a cached ATR; hence every
reachable state satisfies `PosAtrInv`, which justifies claim C3's ATR
side condition. -/

theorem posAtrInv_of_eq (ctx ctx' : Context) (hpos : ctx'.positions = ctx.positions)
    (hatr : ctx'.atrs = ctx.atrs) (h : PosAtrInv ctx) : PosAtrInv ctx' := by
  intro item pos hp hs
  have hp' : ctx.get_position item = some pos := by
    unfold Context.get_position at hp ⊢
    rw [← hpos]
    exact hp
  obtain ⟨a, ha⟩ := h item pos hp' hs
  refine ⟨a, ?_⟩
  unfold Context.get_atr at ha ⊢
  rw [hatr]
  exact ha

theorem posAtrInv_update_atr (ctx : Context) (item : String) (v : ℚ) (h : PosAtrInv ctx) :
    PosAtrInv (ctx.update_atr item v) := by
  intro it pos hp hs
  obtain ⟨a, ha⟩ := h it pos hp hs
  by_cases hit : item = it
  · subst hit
    exact ⟨v, alGet_alUpdate_self item _ ctx.atrs⟩
  · refine ⟨a, ?_⟩
    show alGet it (alUpdate item (fun _ => v) ctx.atrs) = some a
    rw [alGet_alUpdate_ne item it (fun hh => hit hh.symm)]
    exact ha

theorem posAtrInv_update_position (ctx : Context) (np : Position) (h : PosAtrInv ctx)
    (hnp : np.size ≠ 0 → ∃ a, ctx.get_atr np.item = some a) :
    PosAtrInv (ctx.update_position np) := by
  intro it pos hp hs
  by_cases hit : np.item = it
  · subst hit
    unfold Context.get_position Context.update_position at hp
    rw [alGet_alUpdate_self] at hp
    injection hp with hp
    exact hnp (by rw [hp]; exact hs)
  · unfold Context.get_position Context.update_position at hp
    rw [alGet_alUpdate_ne np.item it (fun hh => hit hh.symm)] at hp
    exact h it pos hp hs

theorem posAtrInv_posBlock (p : StrategyParams) (ctx : Context) (o : Order)
    (h : PosAtrInv ctx) : PosAtrInv (posBlock p ctx o).1 := by
  rcases hp : ctx.get_position o.item with _ | lp
  · rw [posBlock_no_position p ctx o hp]
    exact h
  · rcases ha : ctx.get_atr o.item with _ | a
    · rw [posBlock_no_atr p ctx o ha]
      exact h
    · rw [posBlock_some p ctx o lp a hp ha]
      exact posAtrInv_update_position ctx (posUpdated p lp a o) h (fun _ => ⟨a, ha⟩)

theorem posAtrInv_processOrder (p : StrategyParams) (ctx : Context) (o : Order)
    (h : PosAtrInv ctx) : PosAtrInv (processOrder p ctx o).1 := by
  have h1 := posAtrInv_posBlock p ctx o h
  have h2 := posAtrInv_of_eq (posBlock p ctx o).1 (trBlock (posBlock p ctx o).1 o).1
    (trBlock_positions _ o) (trBlock_atrs _ o) h1
  simpa only [processOrder] using h2

theorem posAtrInv_buy (p : StrategyParams) (ctx : Context) (item : String) (price : ℚ)
    (ts : ℤ) (q : Option ℚ) (h : PosAtrInv ctx) : PosAtrInv (buy p ctx item price ts q).1 := by
  rcases buy_ctx_cases p ctx item price ts q with hc | ⟨o, hc⟩ <;> rw [hc]
  · exact h
  · exact posAtrInv_processOrder p ctx o h

theorem posAtrInv_sell (p : StrategyParams) (ctx : Context) (item : String) (price : ℚ)
    (ts : ℤ) (q : Option ℚ) (h : PosAtrInv ctx) : PosAtrInv (sell p ctx item price ts q).1 := by
  rcases sell_ctx_cases p ctx item price ts q with hc | ⟨o, hc⟩ <;> rw [hc]
  · exact h
  · exact posAtrInv_processOrder p ctx o h

theorem posAtrInv_applyEvent (ctx : Context) (e : Event) (h : PosAtrInv ctx) :
    PosAtrInv (applyEvent ctx e) := by
  cases e <;> exact posAtrInv_of_eq ctx _ rfl rfl h

theorem posAtrInv_applyEvents (l : List Event) : ∀ ctx, PosAtrInv ctx →
    PosAtrInv (applyEvents ctx l) := by
  induction l with
  | nil => intro ctx h; exact h
  | cons e rest ih => intro ctx h; exact ih _ (posAtrInv_applyEvent ctx e h)

theorem posAtrInv_applyAction (p : StrategyParams) (ctx : Context) (a : Action)
    (h : PosAtrInv ctx) : PosAtrInv (applyAction p ctx a).1 := by
  cases a with
  | actBuy item price ts q => exact posAtrInv_buy p ctx item price ts q h
  | actSell item price ts q => exact posAtrInv_sell p ctx item price ts q h
  | actUpdateAtr item v => exact posAtrInv_update_atr ctx item v h

theorem posAtrInv_runActions (p : StrategyParams) (acts : List Action) : ∀ ctx, PosAtrInv ctx →
    PosAtrInv (runActions p ctx acts).1 := by
  induction acts with
  | nil => intro ctx h; exact h
  | cons a rest ih =>
    intro ctx h
    simp only [runActions]
    exact ih _ (posAtrInv_applyAction p ctx a h)

theorem posAtrInv_dispatchF (p : StrategyParams) (pol : Policy) :
    ∀ (fuel : ℕ) (ctx : Context) (q : List Event), PosAtrInv ctx →
      PosAtrInv (dispatchF p pol fuel ctx q).1 := by
  intro fuel
  induction fuel with
  | zero => intro ctx q h; exact h
  | succ n ih =>
    intro ctx q h
    rcases q with _ | ⟨e, rest⟩
    · exact h
    · cases e with
      | EventFinish => exact h
      | EventCandle c =>
        simp only [dispatchF]
        apply ih
        apply posAtrInv_runActions
        exact posAtrInv_of_eq ctx _ rfl rfl h
      | EventPosition x =>
        simp only [dispatchF]
        exact ih _ _ (posAtrInv_applyEvent ctx _ h)
      | EventOrder x =>
        simp only [dispatchF]
        exact ih _ _ (posAtrInv_applyEvent ctx _ h)
      | EventEquity x =>
        simp only [dispatchF]
        exact ih _ _ (posAtrInv_applyEvent ctx _ h)
      | EventTradeRecord x =>
        simp only [dispatchF]
        exact ih _ _ (posAtrInv_applyEvent ctx _ h)

theorem allFlat_update_position (ctx : Context) (np : Position) (h : AllFlat ctx)
    (hnp : np.size = 0) : AllFlat (ctx.update_position np) := by
  intro it pos hp
  by_cases hit : np.item = it
  · subst hit
    unfold Context.get_position Context.update_position at hp
    rw [alGet_alUpdate_self] at hp
    injection hp with hp
    rw [← hp]
    exact hnp
  · unfold Context.get_position Context.update_position at hp
    rw [alGet_alUpdate_ne np.item it (fun hh => hit hh.symm)] at hp
    exact h it pos hp

theorem allFlat_of_eq (ctx ctx' : Context) (hpos : ctx'.positions = ctx.positions)
    (h : AllFlat ctx) : AllFlat ctx' := by
  intro it pos hp
  apply h it pos
  unfold Context.get_position at hp ⊢
  rw [← hpos]
  exact hp

theorem allFlat_foldl {α : Type} (f : Context → α → Context)
    (hf : ∀ ctx x, AllFlat ctx → AllFlat (f ctx x)) :
    ∀ (l : List α) (ctx : Context), AllFlat ctx → AllFlat (List.foldl f ctx l) := by
  intro l
  induction l with
  | nil => intro ctx h; exact h
  | cons x rest ih => intro ctx h; exact ih _ (hf ctx x h)

theorem allFlat_initContext (p : StrategyParams) (now : ℤ) : AllFlat (initContext p now) := by
  unfold initContext
  apply allFlat_foldl
  · intro ctx symbol h
    apply allFlat_foldl
    · intro ctx2 interval h2
      apply allFlat_update_position
      · exact allFlat_of_eq ctx2 _ rfl h2
      · rfl
    · exact h
  · intro it pos hp
    exact Option.noConfusion hp

/-- Every state a system run reaches satisfies `PosAtrInv`: a nonzero
position only ever arises from the ATR-guarded position update, and
cached ATRs are never removed.  This discharges the ATR side condition of
claim C3 on all reachable states. -/
theorem runSystem_posAtrInv (p : StrategyParams) (pol : Policy) (fuel : ℕ) (now : ℤ)
    (candles : List Candle) : PosAtrInv (runSystem p pol fuel now candles).1 := by
  apply posAtrInv_dispatchF
  intro item pos hp hs
  exact absurd (allFlat_initContext p now item pos hp) hs

/-- The invariant `PosAtrInv` holds in the concrete context `ctxLong`. -/
theorem ctxLong_posAtrInv : PosAtrInv ctxLong := by
  intro item pos hp _
  by_cases h : item = "X"
  · subst h
    exact ⟨10, rfl⟩
  · have hx : ("X" : String) ≠ item := fun hh => h hh.symm
    have hnone : ctxLong.get_position item = none := by
      simp [ctxLong, Context.get_position, alGet, hx]
    rw [hnone] at hp
    exact Option.noConfusion hp

/-! ## Claim theorems -/

/-- C8: on a fresh context with initial capital 4000, trading fee 0.001
and a resolved order size of 100 (`pRef`), a single buy on item "X" at
price 100 and timestamp 1000 emits exactly one Equity event with
cash_aval = 3899.9, equity_value = 3999.9 and pos_size = 1, and exactly
one open TradeRecord for "X" with side "buy", size 1 and price_open 100. -/
theorem C8_reference_scenario :
    resolveMargin pRef none = 100 ∧
    equityEvents (buy pRef Context.new "X" 100 1000 none).2 =
      [{ item := "X", timestamp := 1000, equity_value := 39999 / 10, close_latest := 100
         pos_size := 1, cash_aval := 38999 / 10 }] ∧
    trEvents (buy pRef Context.new "X" 100 1000 none).2 =
      [{ item := "X", side := "buy", size := 1, price_open := 100, time_open := 1000
         price_close := 0, time_close := 0, label_close := "" }] := by
  norm_num [buy, resolveMargin, defaultMargin, lastEquityOf, Context.get_last_equity,
    Context.new, alGet, processOrder, posBlock, trBlock, Context.get_position,
    Context.get_atr, Context.get_last_trade_record, pRef, equityEvents, trEvents,
    equityEvents_append, trEvents_append]

/-- C1: a buy or sell submission whose margin times (1 + fee rate) is at
least the item's latest available cash (defaulting to the initial capital
when no equity snapshot exists) is rejected silently: no
Order/Position/Equity/TradeRecord event is emitted and the context is
returned unchanged. -/
theorem C1_insufficient_cash_silent_reject (p : StrategyParams) (ctx : Context) (item : String)
    (price : ℚ) (ts : ℤ) (q : Option ℚ)
    (h : resolveMargin p q * (1 + p.trading_fee) ≥ (lastEquityOf p ctx item ts).cash_aval) :
    buy p ctx item price ts q = (ctx, []) ∧ sell p ctx item price ts q = (ctx, []) := by
  simp only [buy, sell]
  exact ⟨if_neg (not_lt.mpr h), if_neg (not_lt.mpr h)⟩

/-- Witness for C1: under `pPoor` (capital 100, whole capital as default
margin, no fee) a buy and sell on a fresh context are silently rejected. -/
theorem C1_witness :
    resolveMargin pPoor none * (1 + pPoor.trading_fee) ≥
        (lastEquityOf pPoor Context.new "X" 0).cash_aval ∧
    buy pPoor Context.new "X" 10 0 none = (Context.new, []) ∧
    sell pPoor Context.new "X" 10 0 none = (Context.new, []) := by
  have hge : resolveMargin pPoor none * (1 + pPoor.trading_fee) ≥
      (lastEquityOf pPoor Context.new "X" 0).cash_aval := by
    norm_num [resolveMargin, defaultMargin, lastEquityOf, Context.get_last_equity,
      Context.new, alGet, pPoor]
  have h := C1_insufficient_cash_silent_reject pPoor Context.new "X" 10 0 none hge
  exact ⟨hge, h.1, h.2⟩

/-- C4 counterexample: with a prior position (size 1 at price 100) and a
cached ATR of 10, a fill of qty 1 at price 200 yields stop-loss 140 and
take-profit 160 - computed from the size-weighted average price 150, NOT
from the fill price 200 as the claim states (which would give 190/210). -/
theorem C4_counterexample :
    ctxLong.get_position oSame.item = some posLong ∧
    ctxLong.get_atr oSame.item = some 10 ∧
    ((processOrder pUnit ctxLong oSame).1.get_position oSame.item).map Position.stop_loss =
      some 140 ∧
    ((processOrder pUnit ctxLong oSame).1.get_position oSame.item).map Position.take_profit =
      some 160 ∧
    some (oSame.price - pUnit.n_atr_sl * 10) ≠
      ((processOrder pUnit ctxLong oSame).1.get_position oSame.item).map Position.stop_loss ∧
    some (oSame.price + pUnit.n_atr_tp * 10) ≠
      ((processOrder pUnit ctxLong oSame).1.get_position oSame.item).map Position.take_profit := by
  refine ⟨rfl, rfl, ?_⟩
  norm_num [processOrder, posBlock, trBlock, Context.get_position, Context.get_atr,
    Context.get_last_trade_record, Context.update_position, alGet, alUpdate,
    ctxLong, posLong, oSame, pUnit]

/-- C4 amended: the position update sets stop-loss/take-profit from the
size-weighted AVERAGE price (avg - n_atr_sl*ATR and avg + n_atr_tp*ATR),
and when no ATR is cached for the item (or no prior position exists) the
ENTIRE position update is skipped: the positions map is unchanged and no
Position event is emitted. -/
theorem C4_amended_sl_tp_from_avg_and_full_skip (p : StrategyParams) (ctx : Context) (o : Order) :
    (∀ lp a, ctx.get_position o.item = some lp → ctx.get_atr o.item = some a →
      ∃ np, (processOrder p ctx o).1.get_position o.item = some np ∧
        np.stop_loss =
          (lp.size * lp.price + o.qty * o.price) / (lp.size + o.qty) - p.n_atr_sl * a ∧
        np.take_profit =
          (lp.size * lp.price + o.qty * o.price) / (lp.size + o.qty) + p.n_atr_tp * a ∧
        posEvents (processOrder p ctx o).2 = [np]) ∧
    (ctx.get_atr o.item = none →
      (processOrder p ctx o).1.positions = ctx.positions ∧
      posEvents (processOrder p ctx o).2 = []) ∧
    (ctx.get_position o.item = none →
      (processOrder p ctx o).1.positions = ctx.positions ∧
      posEvents (processOrder p ctx o).2 = []) := by
  refine ⟨?_, ?_, ?_⟩
  · intro lp a hp ha
    refine ⟨posUpdated p lp a o, ?_, rfl, rfl, ?_⟩
    · unfold Context.get_position
      rw [processOrder_positions, posBlock_some p ctx o lp a hp ha]
      exact get_position_update_self ctx (posUpdated p lp a o)
    · rw [processOrder_posEvents, posBlock_some p ctx o lp a hp ha]
      rfl
  · intro ha
    constructor
    · rw [processOrder_positions, posBlock_no_atr p ctx o ha]
    · rw [processOrder_posEvents, posBlock_no_atr p ctx o ha]
      rfl
  · intro hp
    constructor
    · rw [processOrder_positions, posBlock_no_position p ctx o hp]
    · rw [processOrder_posEvents, posBlock_no_position p ctx o hp]
      rfl

/-- Witness for the amended C4 at the concrete input of the
counterexample. -/
theorem C4_amended_witness :
    ∃ np, (processOrder pUnit ctxLong oSame).1.get_position oSame.item = some np ∧
      np.stop_loss = (posLong.size * posLong.price + oSame.qty * oSame.price) /
        (posLong.size + oSame.qty) - pUnit.n_atr_sl * 10 ∧
      np.take_profit = (posLong.size * posLong.price + oSame.qty * oSame.price) /
        (posLong.size + oSame.qty) + pUnit.n_atr_tp * 10 ∧
      posEvents (processOrder pUnit ctxLong oSame).2 = [np] :=
  (C4_amended_sl_tp_from_avg_and_full_skip pUnit ctxLong oSame).1 posLong 10 rfl rfl

/-- C3: for an accepted fill on an item with an existing prior position -
under the reachable-state invariant `PosAtrInv` (nonzero positions only
arise with a cached ATR) and a nonzero sign product, as the claim's two
cases require - a same-sign fill accumulates the size and weight-averages
the price, while an opposite-sign fill replaces size and price outright
with the fill's own values. -/
theorem C3_same_sign_accumulates_opposite_replaces (p : StrategyParams) (ctx : Context)
    (o : Order) (lp : Position) (hinv : PosAtrInv ctx)
    (hp : ctx.get_position o.item = some lp) (hne : lp.size * o.qty ≠ 0) :
    ∃ np, (processOrder p ctx o).1.get_position o.item = some np ∧
      (lp.size * o.qty > 0 →
        np.size = lp.size + o.qty ∧
        np.price = (lp.size * lp.price + o.qty * o.price) / (lp.size + o.qty)) ∧
      (lp.size * o.qty < 0 → np.size = o.qty ∧ np.price = o.price) := by
  have hsz : lp.size ≠ 0 := by
    intro h0
    exact hne (by rw [h0, zero_mul])
  obtain ⟨a, ha⟩ := hinv o.item lp hp hsz
  refine ⟨posUpdated p lp a o, ?_, ?_, ?_⟩
  · unfold Context.get_position
    rw [processOrder_positions, posBlock_some p ctx o lp a hp ha]
    exact get_position_update_self ctx (posUpdated p lp a o)
  · intro hgt
    constructor <;> simp [posUpdated, hgt]
  · intro hlt
    have hngt : ¬ lp.size * o.qty > 0 := by linarith
    constructor <;> simp [posUpdated, hngt]

/-- Witness for C3 at a same-sign fill on `ctxLong`. -/
theorem C3_witness :
    ∃ np, (processOrder pUnit ctxLong oSame).1.get_position oSame.item = some np ∧
      (posLong.size * oSame.qty > 0 →
        np.size = posLong.size + oSame.qty ∧
        np.price = (posLong.size * posLong.price + oSame.qty * oSame.price) /
          (posLong.size + oSame.qty)) ∧
      (posLong.size * oSame.qty < 0 → np.size = oSame.qty ∧ np.price = oSame.price) :=
  C3_same_sign_accumulates_opposite_replaces pUnit ctxLong oSame posLong
    ctxLong_posAtrInv rfl (by norm_num [posLong, oSame])

/-- C5 counterexample: under percent-of-equity sizing (`pPct`, fraction
1/10 of initial capital 1000) with current equity 2000, the committed
margin of a buy is 100 = 1/10 of the INITIAL capital, not 200 = 1/10 of
the current equity as the claim states (the submitted order at price 1
has qty = margin). -/
theorem C5_counterexample :
    pPct.is_use_percent_of_equity = true ∧
    (lastEquityOf pPct ctxGrown "X" 0).equity_value = 2000 ∧
    orderEvents (buy pPct ctxGrown "X" 1 0 none).2 =
      [{ item := "X", price := 1, qty := 100, timestamp := 0 }] ∧
    (100 : ℚ) ≠ pPct.percent_of_equity * 2000 := by
  norm_num [buy, resolveMargin, defaultMargin, lastEquityOf, Context.get_last_equity,
    Context.new, alGet, processOrder, posBlock, trBlock, Context.get_position,
    Context.get_atr, Context.get_last_trade_record, pPct, ctxGrown, eqGrown,
    orderEvents, orderEvents_append]

/-- C5 amended: the committed margin is the requested quantity when
positive and below the configured default size, else the default size,
which in BOTH sizing modes is a fixed fraction of the INITIAL capital
(`percent_of_equity` of it in percent-of-equity mode,
`percent_of_every_trade_money` of it in fixed-money mode); an accepted
buy/sell submits an order of that margin at the given price. -/
theorem C5_amended_margin_is_fraction_of_initial_capital (p : StrategyParams) (ctx : Context)
    (item : String) (price : ℚ) (ts : ℤ) (q : Option ℚ) :
    orderEvents (buy p ctx item price ts q).2 =
      (if resolveMargin p q * (1 + p.trading_fee) < (lastEquityOf p ctx item ts).cash_aval
       then [{ item := item, price := price, qty := resolveMargin p q / price, timestamp := ts }]
       else []) ∧
    orderEvents (sell p ctx item price ts q).2 =
      (if resolveMargin p q * (1 + p.trading_fee) < (lastEquityOf p ctx item ts).cash_aval
       then [{ item := item, price := price, qty := -resolveMargin p q / price, timestamp := ts }]
       else []) ∧
    resolveMargin p q =
      (if 0 < q.getD 0 ∧ q.getD 0 < defaultMargin p then q.getD 0 else defaultMargin p) ∧
    defaultMargin p = p.initial_capital *
      (if p.is_use_percent_of_equity then p.percent_of_equity else p.percent_of_every_trade_money) := by
  refine ⟨?_, ?_, rfl, ?_⟩
  · by_cases h : resolveMargin p q * (1 + p.trading_fee) < (lastEquityOf p ctx item ts).cash_aval
    · simp [buy, h, orderEvents_append, processOrder_orderEvents, orderEvents]
    · simp [buy, h, orderEvents]
  · by_cases h : resolveMargin p q * (1 + p.trading_fee) < (lastEquityOf p ctx item ts).cash_aval
    · simp [sell, h, orderEvents_append, processOrder_orderEvents, orderEvents]
    · simp [sell, h, orderEvents]
  · unfold defaultMargin
    by_cases h : p.is_use_percent_of_equity <;> simp [h]

/-- C10 counterexample: two fresh runtimes replaying the SAME (empty) bar
sequence but initialised at different wall-clock times (0 and 1, per
`get_timestamp_ms`) end with different Equity state: the seeded snapshots
carry the wall-clock timestamp. -/
theorem C10_counterexample :
    finalState (runSystem pUnit polBuyer 1 0 []).1 ≠
      finalState (runSystem pUnit polBuyer 1 1 []).1 := by
  decide

/-- C10 amended: replaying an identical ordered bar sequence through two
fresh runtimes yields identical final Position/Equity/TradeRecord state
PROVIDED the two runtimes are initialised at the same wall-clock
timestamp (the replay itself is deterministic; only the `get_timestamp_ms`
init stamps differ between runs). -/
theorem C10_amended_deterministic_given_equal_init_time (p : StrategyParams) (pol : Policy)
    (fuel : ℕ) (candles : List Candle) (t1 t2 : ℤ) (h : t1 = t2) :
    finalState (runSystem p pol fuel t1 candles).1 =
      finalState (runSystem p pol fuel t2 candles).1 := by
  rw [h]

/-- Witness for the amended C10. -/
theorem C10_amended_witness :
    (0 : ℤ) = 0 ∧
    finalState (runSystem pUnit polBuyer 1 0 []).1 =
      finalState (runSystem pUnit polBuyer 1 0 []).1 :=
  ⟨rfl, C10_amended_deterministic_given_equal_init_time pUnit polBuyer 1 [] 0 0 rfl⟩

/-- C7: when no event arrives after the last received one (`arr` empty),
the polling loop exceeds the 20-unit quiescence timeout, synthesizes and
enqueues exactly one Finish event, consumes it, invokes `on_finish`
exactly once and terminates - and stays terminated from step 23 on. -/
theorem C7_quiescence_single_finish (arr : ℕ → Option Event) (h : ∀ t, arr t = none) (n : ℕ) :
    ((qstep arr)^[n + 23] qInit).done = true ∧
    ((qstep arr)^[n + 23] qInit).sentFinish = 1 ∧
    ((qstep arr)^[n + 23] qInit).finishCalls = 1 := by
  have h0 : (qstep arr)^[n + 23] qInit = (qstep noArrivals)^[n + 23] qInit :=
    qstep_iterate_noArr arr h _ _
  have h1 : (qstep noArrivals)^[n + 23] qInit =
      (qstep noArrivals)^[n] ((qstep noArrivals)^[23] qInit) :=
    Function.iterate_add_apply _ n 23 _
  have hD : (qstep noArrivals)^[23] qInit = qDone := by decide
  have hfix : qstep noArrivals qDone = qDone := by decide
  rw [h0, h1, hD, Function.iterate_fixed hfix]
  exact ⟨rfl, rfl, rfl⟩

/-- Witness for C7 with the literally empty arrival schedule. -/
theorem C7_witness :
    (∀ t, noArrivals t = none) ∧
    ((qstep noArrivals)^[0 + 23] qInit).done = true ∧
    ((qstep noArrivals)^[0 + 23] qInit).sentFinish = 1 ∧
    ((qstep noArrivals)^[0 + 23] qInit).finishCalls = 1 := by
  have h := C7_quiescence_single_finish noArrivals (fun _ => rfl) 0
  exact ⟨fun _ => rfl, h.1, h.2.1, h.2.2⟩



/-- Frame conditions common to `buy` and `sell`: the returned context is
either untouched or a `processOrder` context, and `processOrder` never
touches the equity/candle/ATR tables and never changes the shape of the
trade-record histories. -/
theorem frame_of_processOrder_cases (p : StrategyParams) (ctx ctx' : Context)
    (h : ctx' = ctx ∨ ∃ o, ctx' = (processOrder p ctx o).1) :
    ctx'.equities = ctx.equities ∧ ctx'.candles = ctx.candles ∧ ctx'.atrs = ctx.atrs ∧
    trShape ctx' = trShape ctx ∧ trInit ctx' = trInit ctx := by
  rcases h with h | ⟨o, h⟩ <;> subst h
  · exact ⟨rfl, rfl, rfl, rfl, rfl⟩
  · exact ⟨processOrder_equities p ctx o, processOrder_candles p ctx o,
      processOrder_atrs p ctx o, processOrder_trShape p ctx o, processOrder_trInit p ctx o⟩

/-- C9: when `buy` or `sell` returns, the equity history (and the candle
and ATR tables) are untouched and nothing has been appended to any
trade-record history: per-item record counts and all records except the
in-place-editable tail are unchanged (the new Equity and newly opened
TradeRecord exist only as emitted events until the dispatch loop consumes
them).  In particular a second call still reads the pre-order last
equity. -/
theorem C9_buy_sell_mutate_only_positions_and_tail (p : StrategyParams) (ctx : Context)
    (item : String) (price : ℚ) (ts : ℤ) (q : Option ℚ) :
    (buy p ctx item price ts q).1.equities = ctx.equities ∧
    (buy p ctx item price ts q).1.candles = ctx.candles ∧
    (buy p ctx item price ts q).1.atrs = ctx.atrs ∧
    trShape (buy p ctx item price ts q).1 = trShape ctx ∧
    trInit (buy p ctx item price ts q).1 = trInit ctx ∧
    (buy p ctx item price ts q).1.get_last_equity item = ctx.get_last_equity item ∧
    (sell p ctx item price ts q).1.equities = ctx.equities ∧
    (sell p ctx item price ts q).1.candles = ctx.candles ∧
    (sell p ctx item price ts q).1.atrs = ctx.atrs ∧
    trShape (sell p ctx item price ts q).1 = trShape ctx ∧
    trInit (sell p ctx item price ts q).1 = trInit ctx ∧
    (sell p ctx item price ts q).1.get_last_equity item = ctx.get_last_equity item := by
  obtain ⟨hbe, hbc, hba, hbs, hbi⟩ :=
    frame_of_processOrder_cases p ctx _ (buy_ctx_cases p ctx item price ts q)
  obtain ⟨hse, hsc, hsa, hss, hsi⟩ :=
    frame_of_processOrder_cases p ctx _ (sell_ctx_cases p ctx item price ts q)
  exact ⟨hbe, hbc, hba, hbs, hbi, get_last_equity_congr _ _ hbe item,
    hse, hsc, hsa, hss, hsi, get_last_equity_congr _ _ hse item⟩


/-- C2: for an accepted fill, the trade-record history of the item evolves
exactly as the spec says (once the dispatch loop has drained the emitted
events): no open record => append a new open record (side "buy" iff the
signed quantity is positive) and emit it; open tail with the same sign =>
merge into the tail in place (accumulated size, size-weighted open price,
updated open time) with no event; open tail with the opposite sign =>
close the tail in place (fill price/time, label "Close"), append a new
open record, and emit the new record only. -/
theorem C2_trade_record_lifecycle (p : StrategyParams) (ctx : Context) (o : Order)
    (h : trOf ctx o.item = [] ∨
         ∃ last, (trOf ctx o.item).getLast? = some last ∧ last.time_close = 0 ∧
           last.size * o.qty ≠ 0) :
    trOf (applyEvents (processOrder p ctx o).1 (processOrder p ctx o).2) o.item =
      (specTradeUpdate o.item o.qty o.price o.timestamp (trOf ctx o.item)).1 ∧
    trEvents (processOrder p ctx o).2 =
      (specTradeUpdate o.item o.qty o.price o.timestamp (trOf ctx o.item)).2 := by
  have htr1 : (posBlock p ctx o).1.trade_records = ctx.trade_records :=
    posBlock_trade_records p ctx o
  have hdr := processOrder_drained p ctx o
  have hev := processOrder_trEvents p ctx o
  rcases halg : alGet o.item ctx.trade_records with _ | v
  · -- no history vector at all
    have htrOf : trOf ctx o.item = [] := by simp [trOf, halg]
    have hgl : (posBlock p ctx o).1.get_last_trade_record o.item = none := by
      simp [Context.get_last_trade_record, htr1, halg]
    have htb : trBlock (posBlock p ctx o).1 o =
        ((posBlock p ctx o).1,
         [Event.EventTradeRecord (newOpenRecord o.item o.qty o.price o.timestamp)]) := by
      simp [trBlock, hgl, newOpenRecord]
    refine ⟨?_, ?_⟩
    · rw [hdr, htb, htrOf]
      simp [applyEvents, applyEvent, trOf, Context.push_trade_record, newOpenRecord,
        alGet_alUpdate_self, htr1, halg, specTradeUpdate]
    · rw [hev, htb, htrOf]
      simp [trEvents, specTradeUpdate]
  · rcases hvl : v.getLast? with _ | last
    · -- vector present but empty
      have hv : v = [] := List.getLast?_eq_none_iff.mp hvl
      subst hv
      have htrOf : trOf ctx o.item = [] := by simp [trOf, halg]
      have hgl : (posBlock p ctx o).1.get_last_trade_record o.item = none := by
        simp [Context.get_last_trade_record, htr1, halg]
      have htb : trBlock (posBlock p ctx o).1 o =
          ((posBlock p ctx o).1,
           [Event.EventTradeRecord (newOpenRecord o.item o.qty o.price o.timestamp)]) := by
        simp [trBlock, hgl, newOpenRecord]
      refine ⟨?_, ?_⟩
      · rw [hdr, htb, htrOf]
        simp [applyEvents, applyEvent, trOf, Context.push_trade_record, newOpenRecord,
          alGet_alUpdate_self, htr1, halg, specTradeUpdate]
      · rw [hev, htb, htrOf]
        simp [trEvents, specTradeUpdate]
    · -- nonempty history with tail `last`
      have hvne : v ≠ [] := by
        rintro rfl
        simp at hvl
      have htrOf : trOf ctx o.item = v := by simp [trOf, halg]
      have hne : last.size * o.qty ≠ 0 := by
        rcases h with h0 | ⟨last', hl', _, hne'⟩
        · rw [htrOf] at h0
          exact absurd h0 hvne
        · rw [htrOf, hvl] at hl'
          injection hl' with hh
          rwa [← hh] at hne'
      have hgl : (posBlock p ctx o).1.get_last_trade_record o.item = some last := by
        simp [Context.get_last_trade_record, htr1, halg, hvl]
      by_cases hsgn : last.size * o.qty > 0
      · -- same sign: merge in place, no event
        have htb : trBlock (posBlock p ctx o).1 o =
            ((posBlock p ctx o).1.update_trade_record
              { item := o.item, side := last.side, size := last.size + o.qty
                price_open := (last.price_open * last.size + o.price * o.qty) /
                  (last.size + o.qty)
                time_open := o.timestamp, price_close := 0, time_close := 0
                label_close := "" }, []) := by
          simp [trBlock, hgl, hsgn]
        refine ⟨?_, ?_⟩
        · rw [hdr, htb, htrOf]
          simp [applyEvents, trOf, Context.update_trade_record, alGet_alModify_self,
            htr1, halg, specTradeUpdate, hvl, hsgn, setLast_of_ne_nil _ _ hvne]
        · rw [hev, htb, htrOf]
          simp [trEvents, specTradeUpdate, hvl, hsgn]
      · -- opposite sign: close the tail, emit a fresh open record
        have hlt : last.size * o.qty < 0 := lt_of_le_of_ne (not_lt.mp hsgn) hne
        have htb : trBlock (posBlock p ctx o).1 o =
            ((posBlock p ctx o).1.update_trade_record
              { item := o.item, side := last.side, size := last.size
                price_open := last.price_open, time_open := last.time_open
                price_close := o.price, time_close := o.timestamp, label_close := "Close" },
             [Event.EventTradeRecord (newOpenRecord o.item o.qty o.price o.timestamp)]) := by
          simp [trBlock, hgl, hsgn, newOpenRecord]
        refine ⟨?_, ?_⟩
        · rw [hdr, htb, htrOf]
          simp [applyEvents, applyEvent, trOf, Context.update_trade_record,
            Context.push_trade_record, newOpenRecord, alGet_alUpdate_self,
            alGet_alModify_self, htr1, halg, specTradeUpdate, hvl, hsgn, hlt,
            not_lt.mpr (le_of_lt hlt), setLast_of_ne_nil _ _ hvne]
        · rw [hev, htb, htrOf]
          simp [trEvents, specTradeUpdate, hvl, hsgn, hlt, newOpenRecord,
            not_lt.mpr (le_of_lt hlt)]

/-- Witness for C2: a first fill on a fresh context takes the
no-open-record path. -/
theorem C2_witness :
    (trOf Context.new oSame.item = [] ∨
     ∃ last, (trOf Context.new oSame.item).getLast? = some last ∧ last.time_close = 0 ∧
       last.size * oSame.qty ≠ 0) ∧
    trOf (applyEvents (processOrder pUnit Context.new oSame).1
        (processOrder pUnit Context.new oSame).2) oSame.item =
      (specTradeUpdate oSame.item oSame.qty oSame.price oSame.timestamp
        (trOf Context.new oSame.item)).1 ∧
    trEvents (processOrder pUnit Context.new oSame).2 =
      (specTradeUpdate oSame.item oSame.qty oSame.price oSame.timestamp
        (trOf Context.new oSame.item)).2 := by
  have hmain := C2_trade_record_lifecycle pUnit Context.new oSame (Or.inl rfl)
  exact ⟨Or.inl rfl, hmain.1, hmain.2⟩

/-- FIFO pass-through: a run of passive events at the front of the queue
is consumed one by one (each applied to the context) before the rest of
the queue is touched. -/
theorem dispatch_passthrough (p : StrategyParams) (pol : Policy) :
    ∀ (pending : List Event) (n : ℕ) (ctx : Context) (tailq : List Event),
      (∀ e ∈ pending, isPassive e = true) →
      dispatchF p pol (pending.length + n) ctx (pending ++ tailq) =
        ((dispatchF p pol n (applyEvents ctx pending) tailq).1,
         pending ++ (dispatchF p pol n (applyEvents ctx pending) tailq).2) := by
  intro pending
  induction pending with
  | nil =>
    intro n ctx tailq _
    simp [applyEvents]
  | cons e rest ih =>
    intro n ctx tailq h
    have he : isPassive e = true := h e (List.mem_cons_self e rest)
    have hrest : ∀ x ∈ rest, isPassive x = true := fun x hx => h x (List.mem_cons_of_mem _ hx)
    have hlen : (e :: rest).length + n = (rest.length + n) + 1 := by
      simp [List.length_cons]
      omega
    rw [hlen]
    cases e with
    | EventFinish => simp [isPassive] at he
    | EventCandle c => simp [isPassive] at he
    | EventPosition q =>
      show dispatchF p pol (rest.length + n + 1) ctx (Event.EventPosition q :: (rest ++ tailq)) = _
      simp only [dispatchF]
      rw [ih n (applyEvent ctx (Event.EventPosition q)) tailq hrest]
      simp [applyEvents]
    | EventOrder od =>
      show dispatchF p pol (rest.length + n + 1) ctx (Event.EventOrder od :: (rest ++ tailq)) = _
      simp only [dispatchF]
      rw [ih n (applyEvent ctx (Event.EventOrder od)) tailq hrest]
      simp [applyEvents]
    | EventEquity eq =>
      show dispatchF p pol (rest.length + n + 1) ctx (Event.EventEquity eq :: (rest ++ tailq)) = _
      simp only [dispatchF]
      rw [ih n (applyEvent ctx (Event.EventEquity eq)) tailq hrest]
      simp [applyEvents]
    | EventTradeRecord t =>
      show dispatchF p pol (rest.length + n + 1) ctx (Event.EventTradeRecord t :: (rest ++ tailq)) = _
      simp only [dispatchF]
      rw [ih n (applyEvent ctx (Event.EventTradeRecord t)) tailq hrest]
      simp [applyEvents]

/-- C6 amended: the events generated while processing one Candle are
appended to the BACK of the FIFO bus; the loop first consumes and applies
every event that was already buffered, and only then the generated
events.  (The original claim - generated events consumed before the next
already-buffered event - is refuted by `C6_counterexample`.) -/
theorem C6_amended_fifo_order (p : StrategyParams) (pol : Policy) (ctx : Context) (c : Candle)
    (pending : List Event) (n : ℕ) (h : ∀ e ∈ pending, isPassive e = true) :
    dispatchF p pol (pending.length + n + 1) ctx (Event.EventCandle c :: pending) =
      ((dispatchF p pol n (applyEvents (candleGen p pol ctx c).1 pending)
          (candleGen p pol ctx c).2).1,
       Event.EventCandle c :: (pending ++
         (dispatchF p pol n (applyEvents (candleGen p pol ctx c).1 pending)
           (candleGen p pol ctx c).2).2)) := by
  simp only [dispatchF, candleGen]
  rw [dispatch_passthrough p pol pending n _ _ h]

/-- C6 counterexample: with two candles buffered and a policy that buys
on every candle, processing the first candle generates a nonempty event
set, yet the very next event the loop consumes is the second buffered
candle, not one of the generated events. -/
theorem C6_counterexample :
    (candleGen pUnit polBuyer Context.new cA).2 ≠ [] ∧
    (∃ rest, (dispatchF pUnit polBuyer 12 Context.new
        [Event.EventCandle cA, Event.EventCandle cB]).2 =
      Event.EventCandle cA :: Event.EventCandle cB :: rest) ∧
    Event.EventCandle cB ∉ (candleGen pUnit polBuyer Context.new cA).2 := by
  refine ⟨?_, ?_, ?_⟩
  · norm_num [candleGen, polBuyer, runActions, applyAction, buy, resolveMargin, defaultMargin,
      lastEquityOf, Context.get_last_equity, Context.new, Context.push_candle, alGet, alUpdate,
      processOrder, posBlock, trBlock, Context.get_position, Context.get_atr,
      Context.get_last_trade_record, pUnit, cA]
    simp
  · rw [show (12:ℕ) = 10 + 1 + 1 from rfl]
    simp only [dispatchF, List.cons_append, List.nil_append]
    exact ⟨_, rfl⟩
  · norm_num [candleGen, polBuyer, runActions, applyAction, buy, resolveMargin, defaultMargin,
      lastEquityOf, Context.get_last_equity, Context.new, Context.push_candle, alGet, alUpdate,
      processOrder, posBlock, trBlock, Context.get_position, Context.get_atr,
      Context.get_last_trade_record, pUnit, cA]
    simp

/-- Witness for the amended C6: one passive `Order` event buffered behind
a candle is consumed before the candle's generated events. -/
theorem C6_amended_witness :
    (∀ e ∈ [Event.EventOrder oSame], isPassive e = true) ∧
    dispatchF pUnit polBuyer ([Event.EventOrder oSame].length + 0 + 1) Context.new
        (Event.EventCandle cA :: [Event.EventOrder oSame]) =
      ((dispatchF pUnit polBuyer 0
          (applyEvents (candleGen pUnit polBuyer Context.new cA).1 [Event.EventOrder oSame])
          (candleGen pUnit polBuyer Context.new cA).2).1,
       Event.EventCandle cA :: ([Event.EventOrder oSame] ++
         (dispatchF pUnit polBuyer 0
           (applyEvents (candleGen pUnit polBuyer Context.new cA).1 [Event.EventOrder oSame])
           (candleGen pUnit polBuyer Context.new cA).2).2)) := by
  have hp : ∀ e ∈ [Event.EventOrder oSame], isPassive e = true := by
    intro e he
    simp at he
    subst he
    rfl
  exact ⟨hp, C6_amended_fifo_order pUnit polBuyer Context.new cA [Event.EventOrder oSame] 0 hp⟩

end BlockQuant
